import Mathlib

/-!
Shallow embedding of the BTC-USDT-Track repository (two near-duplicate Python
variants: `src/BTC_Tracking.py`, ID-based pagination, and `src/test.py`,
time-based pagination).  The pipeline fetches aggregated trades from the
Binance `aggTrades` endpoint, normalizes them, groups by (timestamp, side),
and returns the top-N groups by notional (USDT) value.

Modelling conventions:
- the numeric values parsed by `float(...)` are represented as exact rationals
  (`ℚ`); the floating-point rounding of Python `float` is abstracted away;
- the HTTP API is an oracle function from request parameters to
  `Except Unit (List RawTrade)`; `Except.error` models a
  `requests.exceptions.RequestException` raised by the request;
- the unbounded `while True` fetch loop is given explicit fuel and returns
  `Option`: `none` means the fuel ran out (the real loop would still be
  running), `some` is the value the Python function returns;
- `pandas.DataFrame` values are represented by their list of rows.  A frame
  built by `pd.DataFrame` from an empty list of records has no columns, so
  `df.groupby(["T", "side"])` (and `df.duplicated(subset=[...])`) raises
  `KeyError` on it; `find_largest_trades` therefore returns
  `Except.error "KeyError"` on an empty row list and otherwise the grouped
  and ranked rows;
- `df.groupby([...]).agg(sum).reset_index()` produces one row per distinct
  key, in ascending key order (pandas sorts group keys; the string keys
  satisfy "BUY" < "SELL");
- `df.nlargest(n, col)` (keep="first", the default) is a stable descending
  sort by `col` followed by taking the first `n` rows; Mathlib's
  `List.insertionSort` is stable, and with the relation
  `fun a b => b.amount_usdt ≤ a.amount_usdt` it places earlier rows before
  later rows of equal value, matching pandas.
-/

namespace BTCTrack

/-- Raw aggregated trade as served by the Binance aggTrades endpoint:
`a` = aggregate trade id, `p` = price, `q` = quantity, `T` = timestamp in
microseconds, `m` = buyer-is-maker flag.  `p` and `q` are strings in the
JSON payload; they are represented here by their parsed numeric values. -/
structure RawTrade where
  a : Nat
  p : ℚ
  q : ℚ
  T : Nat
  m : Bool
deriving DecidableEq

/-- Taker side of a trade, as the strings "BUY" and "SELL" in the Python code. -/
inductive Side where
  | BUY
  | SELL
deriving DecidableEq

/-- One row of the DataFrame built by `process_trades`. -/
structure NormalizedTrade where
  T : Nat
  amount_btc : ℚ
  amount_usdt : ℚ
  side : Side
deriving DecidableEq

/-- Body of the loop of `process_trades`:
`side = "SELL" if trade["m"] else "BUY"`,
`amount_btc = float(trade["q"])`, `amount_usdt = float(trade["q"]) * float(trade["p"])`. -/
def processOne (t : RawTrade) : NormalizedTrade :=
  ⟨t.T, t.q, t.q * t.p, if t.m then Side.SELL else Side.BUY⟩

/-- `process_trades` builds one output record per input record, in order
(both variants; the printing of a sample is a side effect with no bearing
on the returned DataFrame). -/
def process_trades (ts : List RawTrade) : List NormalizedTrade :=
  ts.map processOne

/-- One row of the grouped DataFrame (and of the `nlargest` result). -/
structure AggRow where
  T : Nat
  side : Side
  amount_btc : ℚ
  amount_usdt : ℚ
deriving DecidableEq

/-- Position of a side in the ascending order of the strings "BUY" < "SELL",
which is the order pandas uses when sorting group keys. -/
def sideIdx : Side → Nat
  | Side.BUY => 0
  | Side.SELL => 1

/-- The group key of a normalized trade: the pair (timestamp, side). -/
def keyOf (r : NormalizedTrade) : Nat × Side := (r.T, r.side)

/-- Ascending (non-strict) order on group keys: timestamp first, then side. -/
def keyLE (k1 k2 : Nat × Side) : Prop :=
  k1.1 < k2.1 ∨ (k1.1 = k2.1 ∧ sideIdx k1.2 ≤ sideIdx k2.2)

/-- Ascending strict order on group keys. -/
def keyLt (k1 k2 : Nat × Side) : Prop :=
  k1.1 < k2.1 ∨ (k1.1 = k2.1 ∧ sideIdx k1.2 < sideIdx k2.2)

instance : DecidableRel keyLE := fun k1 k2 => by
  unfold keyLE; infer_instance

instance : DecidableRel keyLt := fun k1 k2 => by
  unfold keyLt; infer_instance

instance : IsTotal (Nat × Side) keyLE :=
  ⟨by intro k1 k2; unfold keyLE; omega⟩

instance : IsTrans (Nat × Side) keyLE :=
  ⟨by intro k1 k2 k3; unfold keyLE; omega⟩

/-- The distinct group keys of a row list, in ascending key order: this is the
index of the DataFrame produced by `df.groupby(["T", "side"])`. -/
def groupKeys (df : List NormalizedTrade) : List (Nat × Side) :=
  List.insertionSort keyLE (df.map keyOf).dedup

/-- Whether a row belongs to the group of key `k`. -/
def matchesKey (k : Nat × Side) (r : NormalizedTrade) : Bool :=
  decide (keyOf r = k)

/-- The aggregated row of key `k`: the `agg` step sums `amount_btc` and
`amount_usdt` over the rows of the group, and `reset_index` turns the key
back into the columns `T` and `side`. -/
def rowFor (df : List NormalizedTrade) (k : Nat × Side) : AggRow :=
  ⟨k.1, k.2,
   ((df.filter (matchesKey k)).map NormalizedTrade.amount_btc).sum,
   ((df.filter (matchesKey k)).map NormalizedTrade.amount_usdt).sum⟩

/-- `df.groupby(["T", "side"]).agg(\x7b"amount_btc": "sum", "amount_usdt": "sum"\x7d).reset_index()`:
one row per distinct (timestamp, side) key, in ascending key order, holding
the per-group sums. -/
def groupby_sum (df : List NormalizedTrade) : List AggRow :=
  (groupKeys df).map (rowFor df)

/-- Descending (non-strict) comparison by notional value, the order used by
`nlargest(n, "amount_usdt")`. -/
def descLE (r1 r2 : AggRow) : Prop :=
  r2.amount_usdt ≤ r1.amount_usdt

instance : DecidableRel descLE := fun r1 r2 => by
  unfold descLE; infer_instance

instance : IsTotal AggRow descLE :=
  ⟨by intro r1 r2; unfold descLE; exact le_total _ _⟩

instance : IsTrans AggRow descLE :=
  ⟨by intro r1 r2 r3 h1 h2; unfold descLE at *; exact le_trans h2 h1⟩

/-- `grouped.nlargest(n, "amount_usdt")` with the default `keep="first"`:
stable descending sort by notional value, then the first `n` rows. -/
def nlargestRows (n : Nat) (rows : List AggRow) : List AggRow :=
  (List.insertionSort descLE rows).take n

/-- `find_largest_trades(df, n)` (default `n = 5` at the call site in `main`):
group by (timestamp, side) with summed amounts, then return the `n` groups of
largest summed notional value.  On the empty DataFrame (no columns, since it
was built from an empty record list) the `groupby` call — and, in the
`test.py` variant, already the `duplicated(subset=[...])` call — raises
`KeyError`. -/
def find_largest_trades (df : List NormalizedTrade) (n : Nat) : Except String (List AggRow) :=
  if df.isEmpty then Except.error "KeyError" else Except.ok (nlargestRows n (groupby_sum df))

/-- Request parameters of the ID-based variant (`BTC_Tracking.py`): the first
request carries `startTime`, every later one carries `fromId`; `limit=1000`
and the microsecond header are constant. -/
inductive ParamsA where
  | byStart (symbol : String) (startTime : Nat)
  | byId (symbol : String) (fromId : Nat)
deriving DecidableEq

/-- Request parameters of the time-based variant (`test.py`): the dict keeps
`symbol`, `startTime` and `endTime`; only `startTime` is mutated. -/
structure ParamsB where
  symbol : String
  startTime : Nat
  endTime : Nat
deriving DecidableEq

/-- The HTTP API as an oracle: a page of trades per request, or a
transport-level error (`requests.exceptions.RequestException`). -/
def Api (P : Type) : Type := P → Except Unit (List RawTrade)

/-- The last element of the nonempty page `d :: ds`, i.e. `data[-1]`. -/
def lastOf (d : RawTrade) (ds : List RawTrade) : RawTrade :=
  ds.getLastD d

/-- The `while True` loop of `get_trades` in the ID-based variant, with
explicit fuel.  Each pass requests a page; a transport error returns `[]`
from the whole function; an empty page breaks with the accumulated trades;
otherwise the page is appended, the loop breaks if the last timestamp has
reached `end_time`, and else continues from `fromId = data[-1]["a"] + 1`. -/
def fetchLoopA (api : Api ParamsA) (symbol : String) (end_time : Nat) :
    Nat → ParamsA → List RawTrade → Option (List RawTrade)
  | 0, _, _ => none
  | fuel + 1, ps, acc =>
    match api ps with
    | Except.error _ => some []
    | Except.ok [] => some acc
    | Except.ok (d :: ds) =>
      if end_time ≤ (lastOf d ds).T then some (acc ++ (d :: ds))
      else fetchLoopA api symbol end_time fuel
        (ParamsA.byId symbol ((lastOf d ds).a + 1)) (acc ++ (d :: ds))

/-- `get_trades` of the ID-based variant: run the loop from the initial
`startTime` request, then filter to `start_time <= trade["T"] <= end_time`. -/
def get_tradesA (api : Api ParamsA) (symbol : String)
    (start_time end_time fuel : Nat) : Option (List RawTrade) :=
  (fetchLoopA api symbol end_time fuel (ParamsA.byStart symbol start_time) []).map
    (List.filter fun t => decide (start_time ≤ t.T) && decide (t.T ≤ end_time))

/-- Whether the run of the ID-based fetch loop reaches a request that raises
a transport error (mirrors `fetchLoopA` step for step). -/
def hitsErrorA (api : Api ParamsA) (symbol : String) (end_time : Nat) :
    Nat → ParamsA → Bool
  | 0, _ => false
  | fuel + 1, ps =>
    match api ps with
    | Except.error _ => true
    | Except.ok [] => false
    | Except.ok (d :: ds) =>
      if end_time ≤ (lastOf d ds).T then false
      else hitsErrorA api symbol end_time fuel
        (ParamsA.byId symbol ((lastOf d ds).a + 1))

/-- The `while True` loop of `get_trades` in the time-based variant, with
explicit fuel.  After a nonempty page the loop sets
`params["startTime"] = data[-1]["T"] + 1` and breaks when that new
`startTime` has reached `end_time`. -/
def fetchLoopB (api : Api ParamsB) :
    Nat → ParamsB → List RawTrade → Option (List RawTrade)
  | 0, _, _ => none
  | fuel + 1, ps, acc =>
    match api ps with
    | Except.error _ => some []
    | Except.ok [] => some acc
    | Except.ok (d :: ds) =>
      if ps.endTime ≤ (lastOf d ds).T + 1 then some (acc ++ (d :: ds))
      else fetchLoopB api fuel
        (ParamsB.mk ps.symbol ((lastOf d ds).T + 1) ps.endTime) (acc ++ (d :: ds))

/-- `get_trades` of the time-based variant: run the loop from the initial
parameter dict; no client-side filter is applied. -/
def get_tradesB (api : Api ParamsB) (symbol : String)
    (start_time end_time fuel : Nat) : Option (List RawTrade) :=
  fetchLoopB api fuel (ParamsB.mk symbol start_time end_time) []

/-- Whether the run of the time-based fetch loop reaches a request that
raises a transport error (mirrors `fetchLoopB` step for step). -/
def hitsErrorB (api : Api ParamsB) : Nat → ParamsB → Bool
  | 0, _ => false
  | fuel + 1, ps =>
    match api ps with
    | Except.error _ => true
    | Except.ok [] => false
    | Except.ok (d :: ds) =>
      if ps.endTime ≤ (lastOf d ds).T + 1 then false
      else hitsErrorB api fuel
        (ParamsB.mk ps.symbol ((lastOf d ds).T + 1) ps.endTime)

/-! ### Helper lemmas about the aggregator -/

/-- The group key carried by an aggregated row. -/
def rowKey (r : AggRow) : Nat × Side := (r.T, r.side)

/-- Strict ascending key order lifted to aggregated rows. -/
def rowKeyLt (r1 r2 : AggRow) : Prop := keyLt (rowKey r1) (rowKey r2)

/-- Output order of a stable descending sort of a key-ascending table:
strictly larger notional first, and among equal notionals the smaller
(timestamp, side) key first. -/
def lexR (r1 r2 : AggRow) : Prop :=
  r2.amount_usdt < r1.amount_usdt ∨
    (r1.amount_usdt = r2.amount_usdt ∧ rowKeyLt r1 r2)

theorem sideIdx_inj {s1 s2 : Side} (h : sideIdx s1 = sideIdx s2) : s1 = s2 := by
  cases s1 <;> cases s2 <;> simp [sideIdx] at h ⊢

theorem keyLt_of_keyLE_of_ne {k1 k2 : Nat × Side} (hle : keyLE k1 k2) (hne : k1 ≠ k2) :
    keyLt k1 k2 := by
  rcases hle with h | ⟨h1, h2⟩
  · exact Or.inl h
  · rcases lt_or_eq_of_le h2 with h3 | h3
    · exact Or.inr ⟨h1, h3⟩
    · exact absurd (Prod.ext_iff.mpr ⟨h1, sideIdx_inj h3⟩) hne

theorem groupKeys_nodup (df : List NormalizedTrade) : (groupKeys df).Nodup :=
  (List.perm_insertionSort keyLE _).nodup_iff.mpr (List.nodup_dedup _)

theorem mem_groupKeys {df : List NormalizedTrade} {k : Nat × Side} :
    k ∈ groupKeys df ↔ k ∈ df.map keyOf := by
  unfold groupKeys
  rw [List.mem_insertionSort, List.mem_dedup]

theorem groupKeys_sorted (df : List NormalizedTrade) : (groupKeys df).Pairwise keyLt := by
  have h1 : (groupKeys df).Pairwise keyLE := List.sorted_insertionSort keyLE _
  exact (h1.and (groupKeys_nodup df)).imp fun h => keyLt_of_keyLE_of_ne h.1 h.2

theorem rowKey_rowFor (df : List NormalizedTrade) (k : Nat × Side) :
    rowKey (rowFor df k) = k := by
  simp [rowKey, rowFor]

theorem groupby_sum_sorted (df : List NormalizedTrade) :
    (groupby_sum df).Pairwise rowKeyLt := by
  unfold groupby_sum
  rw [List.pairwise_map]
  refine (groupKeys_sorted df).imp ?_
  intro k1 k2 h
  unfold rowKeyLt
  rw [rowKey_rowFor, rowKey_rowFor]
  exact h

theorem orderedInsert_lex (a : AggRow) (L : List AggRow) (hL : L.Pairwise lexR)
    (ha : ∀ y ∈ L, rowKeyLt a y) : (List.orderedInsert descLE a L).Pairwise lexR := by
  induction L with
  | nil => simp
  | cons b l ih =>
    have hb := (List.pairwise_cons.mp hL).1
    have hl := (List.pairwise_cons.mp hL).2
    by_cases h : descLE a b
    · rw [List.orderedInsert_of_le _ _ h]
      refine List.pairwise_cons.mpr ⟨?_, hL⟩
      intro z hz
      have hba : b.amount_usdt ≤ a.amount_usdt := h
      rcases List.mem_cons.mp hz with rfl | hz
      · rcases lt_or_eq_of_le hba with h3 | h3
        · exact Or.inl h3
        · exact Or.inr ⟨h3.symm, ha z (List.mem_cons_self z l)⟩
      · rcases hb z hz with h4 | ⟨h4, _⟩
        · rcases lt_or_eq_of_le (le_of_lt (lt_of_lt_of_le h4 hba)) with h5 | h5
          · exact Or.inl h5
          · exact Or.inr ⟨h5.symm, ha z (List.mem_cons_of_mem b hz)⟩
        · have hza : z.amount_usdt ≤ a.amount_usdt := h4 ▸ hba
          rcases lt_or_eq_of_le hza with h5 | h5
          · exact Or.inl h5
          · exact Or.inr ⟨h5.symm, ha z (List.mem_cons_of_mem b hz)⟩
    · have hab : a.amount_usdt < b.amount_usdt := lt_of_not_le h
      simp only [List.orderedInsert, if_neg h]
      refine List.pairwise_cons.mpr ⟨?_, ih hl fun y hy => ha y (List.mem_cons_of_mem b hy)⟩
      intro z hz
      rcases (List.mem_orderedInsert descLE).mp hz with rfl | hz
      · exact Or.inl hab
      · exact hb z hz

theorem insertionSort_lex (L : List AggRow) (hL : L.Pairwise rowKeyLt) :
    (List.insertionSort descLE L).Pairwise lexR := by
  induction L with
  | nil => simp
  | cons a l ih =>
    simp only [List.insertionSort]
    refine orderedInsert_lex a _ (ih (List.pairwise_cons.mp hL).2) ?_
    intro y hy
    exact (List.pairwise_cons.mp hL).1 y ((List.mem_insertionSort descLE).mp hy)

/-- Splitting a mapped sum along a Boolean filter. -/
theorem sum_map_filter_split {α : Type} (p : α → Bool) (f : α → ℚ) (l : List α) :
    ((l.filter p).map f).sum + ((l.filter fun x => !(p x)).map f).sum = (l.map f).sum := by
  induction l with
  | nil => simp
  | cons x xs ih =>
    by_cases h : p x <;> simp [List.filter_cons, h, ← ih] <;> ring

theorem map_ite_not_mem {K : Type} [DecidableEq K] (f0 : ℚ) (g : K → ℚ)
    (ks : List K) (c : K) (hc : c ∉ ks) :
    (ks.map fun k => if c = k then f0 + g k else g k) = ks.map g := by
  apply List.map_congr_left
  intro k hk
  rw [if_neg]
  rintro rfl
  exact hc hk

theorem map_ite_add_sum {K : Type} [DecidableEq K] (f0 : ℚ) (g : K → ℚ) :
    ∀ (ks : List K) (c : K), ks.Nodup → c ∈ ks →
      (ks.map fun k => if c = k then f0 + g k else g k).sum = f0 + (ks.map g).sum := by
  intro ks
  induction ks with
  | nil => intro c _ hc; simp at hc
  | cons k ks ih =>
    intro c hnd hc
    rcases List.mem_cons.mp hc with rfl | hc2
    · rw [List.map_cons, if_pos rfl, List.sum_cons,
        map_ite_not_mem f0 g ks c (List.nodup_cons.mp hnd).1, List.map_cons, List.sum_cons,
        add_assoc]
    · have hck : c ≠ k := by
        rintro rfl
        exact (List.nodup_cons.mp hnd).1 hc2
      rw [List.map_cons, if_neg hck, List.sum_cons,
        ih c (List.nodup_cons.mp hnd).2 hc2, List.map_cons, List.sum_cons]
      ring

/-- Summing the per-group filtered sums over a duplicate-free list of keys
covering every element recovers the total sum: no element is dropped or
counted twice by the grouping. -/
theorem sum_over_nodup_keys {α K : Type} [DecidableEq K] (key : α → K) (f : α → ℚ)
    (ks : List K) (hnd : ks.Nodup) :
    ∀ l : List α, (∀ x ∈ l, key x ∈ ks) →
      (ks.map fun k => ((l.filter fun x => decide (key x = k)).map f).sum).sum
        = (l.map f).sum := by
  intro l
  induction l with
  | nil =>
    intro
    simp
  | cons x xs ih =>
    intro hcov
    have hx : key x ∈ ks := hcov x (List.mem_cons_self x xs)
    have hxs : ∀ y ∈ xs, key y ∈ ks := fun y hy => hcov y (List.mem_cons_of_mem x hy)
    have hsplit : (ks.map fun k =>
          (((x :: xs).filter fun y => decide (key y = k)).map f).sum)
        = ks.map fun k => if key x = k then
            f x + ((xs.filter fun y => decide (key y = k)).map f).sum
          else ((xs.filter fun y => decide (key y = k)).map f).sum := by
      apply List.map_congr_left
      intro k _
      by_cases h : key x = k <;> simp [List.filter_cons, h]
    rw [hsplit, map_ite_add_sum _ _ ks (key x) hnd hx, ih hxs, List.map_cons, List.sum_cons]

/-! ### Helper lemmas about the fetch loops -/

theorem lastOf_mem : ∀ (d : RawTrade) (ds : List RawTrade), lastOf d ds ∈ d :: ds := by
  intro d ds
  induction ds generalizing d with
  | nil => simp [lastOf]
  | cons e es ih =>
    rw [lastOf, List.getLastD_cons]
    exact List.mem_cons_of_mem d (ih e)

/-- If the run of the ID-based loop reaches an erroring request, the loop
discards every accumulated trade and returns `[]`. -/
theorem fetchLoopA_of_hitsError (api : Api ParamsA) (symbol : String) (end_time : Nat) :
    ∀ (fuel : Nat) (ps : ParamsA), hitsErrorA api symbol end_time fuel ps = true →
      ∀ acc, fetchLoopA api symbol end_time fuel ps acc = some [] := by
  intro fuel
  induction fuel with
  | zero =>
    intro ps h
    simp [hitsErrorA] at h
  | succ n ih =>
    intro ps h acc
    cases hapi : api ps with
    | error e => simp [fetchLoopA, hapi]
    | ok data =>
      cases data with
      | nil => simp [hitsErrorA, hapi] at h
      | cons d ds =>
        by_cases hstop : end_time ≤ (lastOf d ds).T
        · simp [hitsErrorA, hapi, hstop] at h
        · simp only [hitsErrorA, hapi, if_neg hstop] at h
          simp only [fetchLoopA, hapi, if_neg hstop]
          exact ih _ h _

/-- If the run of the time-based loop reaches an erroring request, the loop
discards every accumulated trade and returns `[]`. -/
theorem fetchLoopB_of_hitsError (api : Api ParamsB) :
    ∀ (fuel : Nat) (ps : ParamsB), hitsErrorB api fuel ps = true →
      ∀ acc, fetchLoopB api fuel ps acc = some [] := by
  intro fuel
  induction fuel with
  | zero =>
    intro ps h
    simp [hitsErrorB] at h
  | succ n ih =>
    intro ps h acc
    cases hapi : api ps with
    | error e => simp [fetchLoopB, hapi]
    | ok data =>
      cases data with
      | nil => simp [hitsErrorB, hapi] at h
      | cons d ds =>
        by_cases hstop : ps.endTime ≤ (lastOf d ds).T + 1
        · simp [hitsErrorB, hapi, hstop] at h
        · simp only [hitsErrorB, hapi, if_neg hstop] at h
          simp only [fetchLoopB, hapi, if_neg hstop]
          exact ih _ h _

/-- Window invariant of the time-based loop: if every page the API serves
lies inside `[startTime, endTime]` of the request that fetched it, then
every trade the loop returns lies inside `[lo, endTime]` for any lower
bound `lo` below the current cursor. -/
theorem fetchLoopB_window (api : Api ParamsB) (lo : Nat)
    (hB : ∀ ps d ds, api ps = Except.ok (d :: ds) →
        ∀ t ∈ (d :: ds), ps.startTime ≤ t.T ∧ t.T ≤ ps.endTime) :
    ∀ (fuel : Nat) (ps : ParamsB) (acc res : List RawTrade), lo ≤ ps.startTime →
      (∀ t ∈ acc, lo ≤ t.T ∧ t.T ≤ ps.endTime) →
      fetchLoopB api fuel ps acc = some res →
      ∀ t ∈ res, lo ≤ t.T ∧ t.T ≤ ps.endTime := by
  intro fuel
  induction fuel with
  | zero =>
    intro ps acc res _ _ h
    simp [fetchLoopB] at h
  | succ n ih =>
    intro ps acc res hlo hacc h
    cases hapi : api ps with
    | error e =>
      simp only [fetchLoopB, hapi] at h
      rcases Option.some_injective _ h with rfl
      simp
    | ok data =>
      cases data with
      | nil =>
        simp only [fetchLoopB, hapi] at h
        rcases Option.some_injective _ h with rfl
        exact hacc
      | cons d ds =>
        have hpage : ∀ t ∈ (d :: ds), lo ≤ t.T ∧ t.T ≤ ps.endTime := by
          intro t ht
          rcases hB ps d ds hapi t ht with ⟨h1, h2⟩
          exact ⟨le_trans hlo h1, h2⟩
        have hacc2 : ∀ t ∈ acc ++ (d :: ds), lo ≤ t.T ∧ t.T ≤ ps.endTime := by
          intro t ht
          rcases List.mem_append.mp ht with ht | ht
          · exact hacc t ht
          · exact hpage t ht
        by_cases hstop : ps.endTime ≤ (lastOf d ds).T + 1
        · simp only [fetchLoopB, hapi, if_pos hstop] at h
          rcases Option.some_injective _ h with rfl
          exact hacc2
        · simp only [fetchLoopB, hapi, if_neg hstop] at h
          have hlast : ps.startTime ≤ (lastOf d ds).T :=
            (hB ps d ds hapi _ (lastOf_mem d ds)).1
          exact ih (ParamsB.mk ps.symbol ((lastOf d ds).T + 1) ps.endTime)
            (acc ++ (d :: ds)) res (by show lo ≤ (lastOf d ds).T + 1; omega)
            (fun t ht => hacc2 t ht) h

/-- Termination of the ID-based loop: if every nonempty page served for a
`fromId` request has its last aggregate id at least the requested `fromId`,
and every `fromId` request at or beyond the bound `B` yields an empty page,
then the loop finishes on any fuel covering the gap to `B`. -/
theorem fetchLoopA_terminates_byId (api : Api ParamsA) (symbol : String)
    (end_time B : Nat)
    (hID : ∀ f d ds, api (ParamsA.byId symbol f) = Except.ok (d :: ds) →
        f ≤ (lastOf d ds).a)
    (hBound : ∀ f, B ≤ f → api (ParamsA.byId symbol f) = Except.ok []) :
    ∀ (fuel f : Nat) (acc : List RawTrade), B + 1 ≤ fuel + f → 1 ≤ fuel →
      (fetchLoopA api symbol end_time fuel (ParamsA.byId symbol f) acc).isSome := by
  intro fuel
  induction fuel with
  | zero =>
    intro f acc _ h1
    exact absurd h1 (by omega)
  | succ n ih =>
    intro f acc hgap _
    cases hapi : api (ParamsA.byId symbol f) with
    | error e => simp [fetchLoopA, hapi]
    | ok data =>
      cases data with
      | nil => simp [fetchLoopA, hapi]
      | cons d ds =>
        have hfB : f < B := by
          by_contra hge
          have := hBound f (by omega)
          rw [this] at hapi
          simp at hapi
        by_cases hstop : end_time ≤ (lastOf d ds).T
        · simp [fetchLoopA, hapi, if_pos hstop]
        · simp only [fetchLoopA, hapi, if_neg hstop]
          have hf : f ≤ (lastOf d ds).a := hID f d ds hapi
          exact ih ((lastOf d ds).a + 1) _ (by omega) (by omega)

/-- Termination of the time-based loop: if every nonempty page respects the
requested `startTime`, the cursor strictly increases, so fuel covering the
window length suffices. -/
theorem fetchLoopB_terminates (api : Api ParamsB)
    (hT : ∀ ps d ds, api ps = Except.ok (d :: ds) → ps.startTime ≤ (lastOf d ds).T) :
    ∀ (fuel : Nat) (ps : ParamsB) (acc : List RawTrade),
      ps.endTime ≤ ps.startTime + fuel → 1 ≤ fuel →
      (fetchLoopB api fuel ps acc).isSome := by
  intro fuel
  induction fuel with
  | zero =>
    intro ps acc _ h1
    exact absurd h1 (by omega)
  | succ n ih =>
    intro ps acc hgap _
    cases hapi : api ps with
    | error e => simp [fetchLoopB, hapi]
    | ok data =>
      cases data with
      | nil => simp [fetchLoopB, hapi]
      | cons d ds =>
        by_cases hstop : ps.endTime ≤ (lastOf d ds).T + 1
        · simp [fetchLoopB, hapi, if_pos hstop]
        · simp only [fetchLoopB, hapi, if_neg hstop]
          have hf : ps.startTime ≤ (lastOf d ds).T := hT ps d ds hapi
          exact ih _ _ (by simp only []; omega) (by omega)

/-! ### Derived facts used by the claim theorems -/

theorem groupby_sum_keys (df : List NormalizedTrade) :
    (groupby_sum df).map rowKey = groupKeys df := by
  unfold groupby_sum
  rw [List.map_map]
  have h1 : List.map (rowKey ∘ rowFor df) (groupKeys df) = List.map id (groupKeys df) :=
    List.map_congr_left fun k _ => rowKey_rowFor df k
  rw [h1, List.map_id]

theorem groupby_sum_total_btc (df : List NormalizedTrade) :
    ((groupby_sum df).map AggRow.amount_btc).sum = (df.map NormalizedTrade.amount_btc).sum := by
  unfold groupby_sum
  rw [List.map_map]
  have hcong : (groupKeys df).map (AggRow.amount_btc ∘ rowFor df)
      = (groupKeys df).map fun k =>
          ((df.filter fun x => decide (keyOf x = k)).map NormalizedTrade.amount_btc).sum :=
    List.map_congr_left fun k _ => rfl
  rw [hcong]
  exact sum_over_nodup_keys keyOf NormalizedTrade.amount_btc (groupKeys df)
    (groupKeys_nodup df) df fun x hx => mem_groupKeys.mpr (List.mem_map_of_mem keyOf hx)

theorem groupby_sum_total_usdt (df : List NormalizedTrade) :
    ((groupby_sum df).map AggRow.amount_usdt).sum = (df.map NormalizedTrade.amount_usdt).sum := by
  unfold groupby_sum
  rw [List.map_map]
  have hcong : (groupKeys df).map (AggRow.amount_usdt ∘ rowFor df)
      = (groupKeys df).map fun k =>
          ((df.filter fun x => decide (keyOf x = k)).map NormalizedTrade.amount_usdt).sum :=
    List.map_congr_left fun k _ => rfl
  rw [hcong]
  exact sum_over_nodup_keys keyOf NormalizedTrade.amount_usdt (groupKeys df)
    (groupKeys_nodup df) df fun x hx => mem_groupKeys.mpr (List.mem_map_of_mem keyOf hx)

/-- The two raw trades of the end-to-end scenario in the spec: both at
timestamp 1000000, quantities 1.0 and 0.5, price 50000.0, maker flag false. -/
def scenarioTrades : List RawTrade :=
  [⟨1, 50000, 1, 1000000, false⟩, ⟨2, 50000, 1/2, 1000000, false⟩]

/-! ### Claim theorems -/

/-- Claim C1: the grouping step of `find_largest_trades` produces exactly one
row per distinct (timestamp, side) key of the input (duplicate-free keys that
cover exactly the input keys), each row holds the exact sums of base quantity
and notional value over the input trades with that key, the grand totals are
preserved (no trade is double-counted or dropped), and on the concrete
two-trade scenario the output is the single row
(1000000, BUY, 1.5, 75000.0). -/
theorem aggregator_exact_partition (df : List NormalizedTrade) :
    ((groupby_sum df).map rowKey).Nodup
  ∧ (∀ k, k ∈ (groupby_sum df).map rowKey ↔ k ∈ df.map keyOf)
  ∧ (∀ row ∈ groupby_sum df,
        row.amount_btc
          = ((df.filter (matchesKey (rowKey row))).map NormalizedTrade.amount_btc).sum
      ∧ row.amount_usdt
          = ((df.filter (matchesKey (rowKey row))).map NormalizedTrade.amount_usdt).sum)
  ∧ ((groupby_sum df).map AggRow.amount_btc).sum = (df.map NormalizedTrade.amount_btc).sum
  ∧ ((groupby_sum df).map AggRow.amount_usdt).sum = (df.map NormalizedTrade.amount_usdt).sum
  ∧ find_largest_trades (process_trades scenarioTrades) 5
      = Except.ok [⟨1000000, Side.BUY, 3/2, 75000⟩] := by
  refine ⟨?_, ?_, ?_, groupby_sum_total_btc df, groupby_sum_total_usdt df, ?_⟩
  · rw [groupby_sum_keys]
    exact groupKeys_nodup df
  · intro k
    rw [groupby_sum_keys]
    exact mem_groupKeys
  · intro row hrow
    rcases List.mem_map.mp hrow with ⟨k, _, rfl⟩
    rw [rowKey_rowFor]
    exact ⟨rfl, rfl⟩
  · norm_num [scenarioTrades, find_largest_trades, nlargestRows, groupby_sum, groupKeys,
      process_trades, processOne, keyOf, rowFor, matchesKey, descLE, keyLE,
      sideIdx, List.insertionSort, List.orderedInsert, List.dedup]

/-- Claim C2: whatever list `find_largest_trades` returns is sorted in
descending order of summed notional value, has at most `n` rows, and has
fewer than `n` rows only when the input has fewer than `n` distinct
(timestamp, side) groups. -/
theorem topn_sorted_and_bounded (df : List NormalizedTrade) (n : Nat)
    (out : List AggRow) (h : find_largest_trades df n = Except.ok out) :
    out.Pairwise (fun r1 r2 => r2.amount_usdt ≤ r1.amount_usdt)
  ∧ out.length ≤ n
  ∧ (out.length < n → ((df.map keyOf).dedup).length < n) := by
  unfold find_largest_trades at h
  by_cases hdf : df.isEmpty
  · rw [if_pos hdf] at h
    simp at h
  · rw [if_neg hdf] at h
    have hout : out = nlargestRows n (groupby_sum df) := by
      injection h with h2
      exact h2.symm
    subst hout
    unfold nlargestRows
    refine ⟨?_, ?_, ?_⟩
    · exact (List.sorted_insertionSort descLE (groupby_sum df)).sublist
        (List.take_sublist n _)
    · rw [List.length_take]
      exact min_le_left _ _
    · intro hlt
      have h1 : (List.insertionSort descLE (groupby_sum df)).length
          = ((df.map keyOf).dedup).length := by
        rw [(List.perm_insertionSort descLE (groupby_sum df)).length_eq]
        unfold groupby_sum
        rw [List.length_map]
        unfold groupKeys
        exact (List.perm_insertionSort keyLE _).length_eq
      rw [List.length_take] at hlt
      omega

/-- Claim C6: the side assigned by `process_trades` depends on nothing but
the buyer-is-maker flag: SELL exactly when the flag is true, BUY exactly when
it is false, and two raw trades with equal flags get equal sides. -/
theorem side_pure_function_of_maker (t1 t2 : RawTrade) (h : t1.m = t2.m) :
    ((processOne t1).side = Side.SELL ↔ t1.m = true)
  ∧ ((processOne t1).side = Side.BUY ↔ t1.m = false)
  ∧ (processOne t1).side = (processOne t2).side := by
  refine ⟨?_, ?_, ?_⟩
  · cases ht : t1.m <;> simp [processOne, ht]
  · cases ht : t1.m <;> simp [processOne, ht]
  · simp [processOne, h]

/-- Claim C7: `process_trades` maps each input record to exactly one output
record, preserving order (the i-th output is the normalization of the i-th
input), and the total base quantity is conserved. -/
theorem normalizer_one_to_one (ts : List RawTrade) :
    (process_trades ts).length = ts.length
  ∧ (∀ i : Nat, (process_trades ts).get? i = (ts.get? i).map processOne)
  ∧ ((process_trades ts).map NormalizedTrade.amount_btc).sum = (ts.map RawTrade.q).sum := by
  refine ⟨by simp [process_trades], fun i => by simp [process_trades, List.get?_map], ?_⟩
  unfold process_trades
  rw [List.map_map]
  have h1 : List.map (NormalizedTrade.amount_btc ∘ processOne) ts = List.map RawTrade.q ts :=
    List.map_congr_left fun t _ => rfl
  rw [h1]

/-- Claim C5 (failing behaviour at the failing input): on an empty fetch
result, `process_trades` yields an empty row list, and `find_largest_trades`
then raises `KeyError` (the frame built from an empty record list has no
columns, so neither the `groupby` of `BTC_Tracking.py` nor the
`duplicated(subset=[...])` of `test.py` finds its columns) instead of
producing zero rows and letting the reporter print only the header and the
separator. -/
theorem empty_fetch_raises_keyerror :
    process_trades [] = []
  ∧ find_largest_trades (process_trades []) 5 = Except.error "KeyError" := by
  exact ⟨rfl, rfl⟩

/-- Claim C3: the ID-based `get_trades` only ever returns trades with
timestamps in the closed window (the post-fetch filter), and relative to the
trades its loop accumulated it neither drops nor duplicates any in-window
trade; the time-based `get_trades` stays inside the window provided the
exchange honours the `startTime`/`endTime` parameters of every page. -/
theorem get_trades_window_exact (api : Api ParamsA) (apiB : Api ParamsB)
    (symbol : String) (start_time end_time fuel : Nat)
    (hB : ∀ ps d ds, apiB ps = Except.ok (d :: ds) →
        ∀ t ∈ (d :: ds), ps.startTime ≤ t.T ∧ t.T ≤ ps.endTime) :
    (∀ res, get_tradesA api symbol start_time end_time fuel = some res →
        ∀ t ∈ res, start_time ≤ t.T ∧ t.T ≤ end_time)
  ∧ (∀ raw res,
        fetchLoopA api symbol end_time fuel (ParamsA.byStart symbol start_time) [] = some raw →
        get_tradesA api symbol start_time end_time fuel = some res →
        ∀ t : RawTrade, start_time ≤ t.T → t.T ≤ end_time →
          res.count t = raw.count t)
  ∧ (∀ res, get_tradesB apiB symbol start_time end_time fuel = some res →
        ∀ t ∈ res, start_time ≤ t.T ∧ t.T ≤ end_time) := by
  refine ⟨?_, ?_, ?_⟩
  · intro res hres t ht
    rcases Option.map_eq_some'.mp hres with ⟨raw, _, hfil⟩
    subst hfil
    have := (List.mem_filter.mp ht).2
    simp only [Bool.and_eq_true, decide_eq_true_eq] at this
    exact this
  · intro raw res hloop hres t h1 h2
    unfold get_tradesA at hres
    rw [hloop] at hres
    simp only [Option.map_some'] at hres
    rcases Option.some_injective _ hres with rfl
    exact List.count_filter (by simp [h1, h2])
  · intro res hres t ht
    have := fetchLoopB_window apiB start_time hB fuel
      (ParamsB.mk symbol start_time end_time) [] res (le_refl _) (by simp) hres t ht
    exact this

/-- Claim C4: in both variants, if the run of the fetch loop reaches a
request that raises a transport-level error, `get_trades` returns the empty
list, discarding every page accumulated before the failure. -/
theorem transport_error_yields_empty (apiA : Api ParamsA) (apiB : Api ParamsB)
    (symbol : String) (start_time end_time fuel : Nat) :
    (hitsErrorA apiA symbol end_time fuel (ParamsA.byStart symbol start_time) = true →
        get_tradesA apiA symbol start_time end_time fuel = some [])
  ∧ (hitsErrorB apiB fuel (ParamsB.mk symbol start_time end_time) = true →
        get_tradesB apiB symbol start_time end_time fuel = some []) := by
  constructor
  · intro h
    unfold get_tradesA
    rw [fetchLoopA_of_hitsError apiA symbol end_time fuel _ h []]
    rfl
  · intro h
    exact fetchLoopB_of_hitsError apiB fuel _ h []

/-- First raw trade of the stop-condition counterexample: timestamp 999. -/
def tCE1 : RawTrade := ⟨1, 1, 1, 999, false⟩

/-- Second raw trade of the stop-condition counterexample: timestamp 1000,
inside the window `[0, 1000]` but never fetched. -/
def tCE2 : RawTrade := ⟨2, 1, 1, 1000, false⟩

/-- Counterexample API for the time-based stop condition: the first request
(cursor 0) is served the page `[tCE1]`, every further request is served
`[tCE2]`. -/
def apiCE : Api ParamsB := fun ps =>
  if ps.startTime = 0 then Except.ok [tCE1] else Except.ok [tCE2]

/-- Claim C9 is false as stated for the time-based variant: with the window
`[0, 1000]`, the loop stops after a nonempty page whose last timestamp is
999 < 1000 (because `startTime` becomes 999 + 1 = 1000 ≥ `end_time`), even
though the next request would have been served a further page; had the loop
continued as the claimed stop condition (last timestamp ≥ window end)
prescribes, it would also have returned `tCE2`. -/
theorem stop_condition_off_by_one :
    fetchLoopB apiCE 10 (ParamsB.mk "BTCUSDT" 0 1000) [] = some [tCE1]
  ∧ apiCE (ParamsB.mk "BTCUSDT" 0 1000) = Except.ok [tCE1]
  ∧ tCE1.T < 1000
  ∧ fetchLoopB apiCE 9 (ParamsB.mk "BTCUSDT" 1000 1000) [tCE1] = some [tCE1, tCE2] := by
  refine ⟨rfl, rfl, ?_, rfl⟩
  show 999 < 1000
  omega

/-- Claim C9 (amended): in the ID-based variant the cursor advances to
`lastTradeId + 1` (strictly increasing whenever pages honour `fromId`) and
the loop stops exactly on an empty page or a last timestamp ≥ the window
end; in the time-based variant the cursor advances to `lastTimestamp + 1`
(strictly increasing whenever pages honour `startTime`) and the loop stops
on an empty page or when `lastTimestamp + 1` has reached the window end;
under those API hypotheses (plus, for the ID variant, a bound beyond which
pages are empty) both loops terminate on bounded fuel. -/
theorem pagination_cursor_and_termination
    (apiA : Api ParamsA) (apiB : Api ParamsB) (symbol : String)
    (start_time end_time B : Nat)
    (hID : ∀ f d ds, apiA (ParamsA.byId symbol f) = Except.ok (d :: ds) →
        f ≤ (lastOf d ds).a)
    (hBound : ∀ f, B ≤ f → apiA (ParamsA.byId symbol f) = Except.ok [])
    (hT : ∀ ps d ds, apiB ps = Except.ok (d :: ds) → ps.startTime ≤ (lastOf d ds).T) :
    (∀ fuel f acc d ds, apiA (ParamsA.byId symbol f) = Except.ok (d :: ds) →
        ¬ end_time ≤ (lastOf d ds).T →
        f < (lastOf d ds).a + 1 ∧
        fetchLoopA apiA symbol end_time (fuel + 1) (ParamsA.byId symbol f) acc
          = fetchLoopA apiA symbol end_time fuel
              (ParamsA.byId symbol ((lastOf d ds).a + 1)) (acc ++ (d :: ds)))
  ∧ (∀ fuel ps acc, apiA ps = Except.ok [] →
        fetchLoopA apiA symbol end_time (fuel + 1) ps acc = some acc)
  ∧ (∀ fuel ps acc d ds, apiA ps = Except.ok (d :: ds) →
        end_time ≤ (lastOf d ds).T →
        fetchLoopA apiA symbol end_time (fuel + 1) ps acc = some (acc ++ (d :: ds)))
  ∧ (fetchLoopA apiA symbol end_time (B + 2) (ParamsA.byStart symbol start_time) []).isSome
  ∧ (∀ fuel ps acc d ds, apiB ps = Except.ok (d :: ds) →
        ¬ ps.endTime ≤ (lastOf d ds).T + 1 →
        ps.startTime < (lastOf d ds).T + 1 ∧
        fetchLoopB apiB (fuel + 1) ps acc
          = fetchLoopB apiB fuel
              (ParamsB.mk ps.symbol ((lastOf d ds).T + 1) ps.endTime) (acc ++ (d :: ds)))
  ∧ (∀ fuel ps acc, apiB ps = Except.ok [] →
        fetchLoopB apiB (fuel + 1) ps acc = some acc)
  ∧ (∀ fuel ps acc d ds, apiB ps = Except.ok (d :: ds) →
        ps.endTime ≤ (lastOf d ds).T + 1 →
        fetchLoopB apiB (fuel + 1) ps acc = some (acc ++ (d :: ds)))
  ∧ (fetchLoopB apiB (end_time - start_time + 1)
        (ParamsB.mk symbol start_time end_time) []).isSome := by
  refine ⟨?_, ?_, ?_, ?_, ?_, ?_, ?_, ?_⟩
  · intro fuel f acc d ds hapi hstop
    constructor
    · have := hID f d ds hapi
      omega
    · simp only [fetchLoopA, hapi, if_neg hstop]
  · intro fuel ps acc hapi
    simp [fetchLoopA, hapi]
  · intro fuel ps acc d ds hapi hstop
    simp [fetchLoopA, hapi, if_pos hstop]
  · cases hapi : apiA (ParamsA.byStart symbol start_time) with
    | error e => simp [fetchLoopA, hapi]
    | ok data =>
      cases data with
      | nil => simp [fetchLoopA, hapi]
      | cons d ds =>
        by_cases hstop : end_time ≤ (lastOf d ds).T
        · simp [fetchLoopA, hapi, if_pos hstop]
        · have h2 : fetchLoopA apiA symbol end_time (B + 2)
              (ParamsA.byStart symbol start_time) []
              = fetchLoopA apiA symbol end_time (B + 1)
                  (ParamsA.byId symbol ((lastOf d ds).a + 1)) ([] ++ (d :: ds)) := by
            simp only [fetchLoopA, hapi, if_neg hstop]
          rw [h2]
          exact fetchLoopA_terminates_byId apiA symbol end_time B hID hBound
            (B + 1) _ _ (by omega) (by omega)
  · intro fuel ps acc d ds hapi hstop
    constructor
    · have := hT ps d ds hapi
      omega
    · simp only [fetchLoopB, hapi, if_neg hstop]
  · intro fuel ps acc hapi
    simp [fetchLoopB, hapi]
  · intro fuel ps acc d ds hapi hstop
    simp [fetchLoopB, hapi, if_pos hstop]
  · exact fetchLoopB_terminates apiB hT (end_time - start_time + 1)
      (ParamsB.mk symbol start_time end_time) []
      (by show end_time ≤ start_time + (end_time - start_time + 1); omega) (by omega)

/-- Claim C10: `find_largest_trades` is deterministic with a fixed
tie-break: the grouped table is in strictly ascending (timestamp, side) key
order; the returned rows are ordered by strictly descending notional value
except that equal notional values appear in ascending key order (smaller
timestamp first, BUY before SELL at equal timestamps); and every returned
row beats every row cut off by the top-`n` truncation in that same sense. -/
theorem nlargest_deterministic_tie_break (df : List NormalizedTrade) (n : Nat)
    (out : List AggRow) (h : find_largest_trades df n = Except.ok out) :
    (groupby_sum df).Pairwise rowKeyLt
  ∧ out.Pairwise lexR
  ∧ (∀ a ∈ out, ∀ b ∈ (List.insertionSort descLE (groupby_sum df)).drop n, lexR a b) := by
  unfold find_largest_trades at h
  by_cases hdf : df.isEmpty
  · rw [if_pos hdf] at h
    simp at h
  · rw [if_neg hdf] at h
    have hout : out = nlargestRows n (groupby_sum df) := by
      injection h with h2
      exact h2.symm
    subst hout
    have hfull : (List.insertionSort descLE (groupby_sum df)).Pairwise lexR :=
      insertionSort_lex _ (groupby_sum_sorted df)
    refine ⟨groupby_sum_sorted df, ?_, ?_⟩
    · exact hfull.sublist (List.take_sublist n _)
    · have hsplit : (List.insertionSort descLE (groupby_sum df)).Pairwise lexR := hfull
      rw [← List.take_append_drop n (List.insertionSort descLE (groupby_sum df))] at hsplit
      exact fun a ha b hb => (List.pairwise_append.mp hsplit).2.2 a ha b hb

/-! ### Concrete inputs for the witnesses -/

/-- An API that serves an empty page to every request (ID-based params). -/
def apiEmptyA : Api ParamsA := fun _ => Except.ok []

/-- An API that serves an empty page to every request (time-based params). -/
def apiEmptyB : Api ParamsB := fun _ => Except.ok []

/-- An API whose every request raises a transport error (ID-based params). -/
def apiErrA : Api ParamsA := fun _ => Except.error ()

/-- An API whose every request raises a transport error (time-based params). -/
def apiErrB : Api ParamsB := fun _ => Except.error ()

/-- A one-row normalized DataFrame used as concrete witness input. -/
def wDf : List NormalizedTrade := [⟨5, 2, 6, Side.BUY⟩]

/-- A concrete raw trade with the maker flag set. -/
def wRaw1 : RawTrade := ⟨1, 2, 3, 4, true⟩

/-- Another concrete raw trade with the maker flag set. -/
def wRaw2 : RawTrade := ⟨7, 5, 4, 9, true⟩

/-! ### Witnesses -/

/-- Witness for C1 at the concrete spec scenario. -/
theorem aggregator_exact_partition_witness :
    find_largest_trades (process_trades scenarioTrades) 5
      = Except.ok [⟨1000000, Side.BUY, 3/2, 75000⟩] :=
  (aggregator_exact_partition []).2.2.2.2.2

/-- Witness for C2 at a concrete one-row input. -/
theorem topn_sorted_and_bounded_witness :
    ([⟨5, Side.BUY, 2, 6⟩] : List AggRow).Pairwise
        (fun r1 r2 => r2.amount_usdt ≤ r1.amount_usdt)
  ∧ ([⟨5, Side.BUY, 2, 6⟩] : List AggRow).length ≤ 3
  ∧ (([⟨5, Side.BUY, 2, 6⟩] : List AggRow).length < 3 →
        ((wDf.map keyOf).dedup).length < 3) :=
  topn_sorted_and_bounded wDf 3 [⟨5, Side.BUY, 2, 6⟩]
    (by norm_num [wDf, find_largest_trades, nlargestRows, groupby_sum, groupKeys,
      keyOf, rowFor, matchesKey, descLE, keyLE, sideIdx,
      List.insertionSort, List.orderedInsert, List.dedup])

/-- An API that serves the single-trade page `[wRaw2]` to every request. -/
def apiOneA : Api ParamsA := fun _ => Except.ok [wRaw2]

/-- Witness for C3 at a concrete API serving one in-window trade. -/
theorem get_trades_window_exact_witness :
    0 ≤ wRaw2.T ∧ wRaw2.T ≤ 9 :=
  (get_trades_window_exact apiOneA apiEmptyB "BTCUSDT" 0 9 1
    (by intro ps d ds hps; simp [apiEmptyB] at hps)).1 [wRaw2] rfl wRaw2 (by simp)

/-- Witness for C4 at a concrete API whose first request errors. -/
theorem transport_error_yields_empty_witness :
    get_tradesA apiErrA "BTCUSDT" 0 10 1 = some []
  ∧ get_tradesB apiErrB "BTCUSDT" 0 10 1 = some [] :=
  ⟨(transport_error_yields_empty apiErrA apiErrB "BTCUSDT" 0 10 1).1 rfl,
   (transport_error_yields_empty apiErrA apiErrB "BTCUSDT" 0 10 1).2 rfl⟩

/-- Witness for C6 at two concrete raw trades with equal maker flags. -/
theorem side_pure_function_of_maker_witness :
    ((processOne wRaw1).side = Side.SELL ↔ wRaw1.m = true)
  ∧ ((processOne wRaw1).side = Side.BUY ↔ wRaw1.m = false)
  ∧ (processOne wRaw1).side = (processOne wRaw2).side :=
  side_pure_function_of_maker wRaw1 wRaw2 rfl

/-- Witness for C7 at a concrete one-trade input. -/
theorem normalizer_one_to_one_witness :
    (process_trades [wRaw1]).length = [wRaw1].length
  ∧ (∀ i : Nat, (process_trades [wRaw1]).get? i = ([wRaw1].get? i).map processOne)
  ∧ ((process_trades [wRaw1]).map NormalizedTrade.amount_btc).sum
      = ([wRaw1].map RawTrade.q).sum :=
  normalizer_one_to_one [wRaw1]

/-- Witness for C9 at concrete APIs that serve empty pages. -/
theorem pagination_cursor_and_termination_witness :
    (fetchLoopA apiEmptyA "BTCUSDT" 10 (0 + 2) (ParamsA.byStart "BTCUSDT" 0) []).isSome
  ∧ (fetchLoopB apiEmptyB (10 - 0 + 1) (ParamsB.mk "BTCUSDT" 0 10) []).isSome := by
  have h := pagination_cursor_and_termination apiEmptyA apiEmptyB "BTCUSDT" 0 10 0
    (by intro f d ds hf; simp [apiEmptyA] at hf)
    (fun f _ => rfl)
    (by intro ps d ds hps; simp [apiEmptyB] at hps)
  exact ⟨h.2.2.2.1, h.2.2.2.2.2.2.2⟩

/-- Witness for C10 at a concrete one-row input. -/
theorem nlargest_deterministic_tie_break_witness :
    (groupby_sum wDf).Pairwise rowKeyLt
  ∧ ([⟨5, Side.BUY, 2, 6⟩] : List AggRow).Pairwise lexR
  ∧ (∀ a ∈ ([⟨5, Side.BUY, 2, 6⟩] : List AggRow),
      ∀ b ∈ (List.insertionSort descLE (groupby_sum wDf)).drop 3, lexR a b) :=
  nlargest_deterministic_tie_break wDf 3 [⟨5, Side.BUY, 2, 6⟩]
    (by norm_num [wDf, find_largest_trades, nlargestRows, groupby_sum, groupKeys,
      keyOf, rowFor, matchesKey, descLE, keyLE, sideIdx,
      List.insertionSort, List.orderedInsert, List.dedup])

end BTCTrack
